import Mathlib

/-!
Verification of the core of `src/books/organize_books.py`: the
classification resolver (`parse_ddc_num`, `resolve_path_stack`), the tree
builder (`build_virtual_tree`) and the balanced distributor
(`balance_and_execute` together with `get_all_files_recursive`).

Modelling conventions:
* Python strings that flow into `float(...)` are modelled by `PyStr`,
  which records the raw characters and the outcome of the conversion.
* JSON objects from the classification table are modelled by `DDCNode`
  with `Option` fields for possibly-missing keys; a missing
  `subordinates` key is read as `[]`, matching `.get('subordinates', [])`.
* Python's `list.sort(key=...)` / `sorted(..., key=..., reverse=True)`
  are stable sorts; they are modelled by a stable insertion sort on the
  same key (extensionally the same function).
* Filesystem side effects are modelled as pure plans: the distributor
  returns, per visited node, the files that stay there, the active
  children, whether the directory is created, and the moves performed.
-/

/-- A Python string as consumed by the script: `str` holds the raw
characters, `toFloat` the result of `float(str.strip())` — `some q` when
the conversion succeeds and `none` when it raises `ValueError`. -/
structure PyStr where
  str : String
  toFloat : Option ℚ
deriving DecidableEq, Repr

/-- Python `parse_ddc_num(num_str)`: `float(str(num_str).strip())`, with
`ValueError` silently mapped to `0.0`. -/
def parse_ddc_num (num_str : PyStr) : ℚ :=
  match num_str.toFloat with
  | some v => v
  | none => 0

/-- One entry of the DDC classification table: a JSON object with
optional `number`, `id` and `description` fields and a (possibly empty)
`subordinates` list. -/
inductive DDCNode where
  | mk (number : Option PyStr) (id : Option String) (description : Option String)
      (subordinates : List DDCNode)

def DDCNode.number : DDCNode → Option PyStr
  | .mk n _ _ _ => n

def DDCNode.id : DDCNode → Option String
  | .mk _ i _ _ => i

def DDCNode.description : DDCNode → Option String
  | .mk _ _ d _ => d

def DDCNode.subordinates : DDCNode → List DDCNode
  | .mk _ _ _ s => s

/-- The sort key `parse_ddc_num(x['number'])` used on candidate nodes.
It is only ever applied to nodes that passed the `'number' in n` filter,
where the field is present. -/
def DDCNode.numKey (n : DDCNode) : ℚ :=
  match n.number with
  | some s => parse_ddc_num s
  | none => 0

/-- The filter `[n for n in current_candidates if 'number' in n]`. -/
def validNodes (l : List DDCNode) : List DDCNode :=
  l.filter (fun n => n.number.isSome)

/-- Stable insertion into a list sorted ascending by `key`: `a` goes in
front of the first element whose key is not strictly smaller, so earlier
elements win ties — the insertion step of a stable ascending sort. -/
def insertByKey {α β : Type} [LinearOrder β] (key : α → β) (a : α) :
    List α → List α
  | [] => [a]
  | b :: l => if key b < key a then b :: insertByKey key a l else a :: b :: l

/-- Stable sort ascending by `key`; models Python's stable
`list.sort(key=...)`. -/
def sortByKey {α β : Type} [LinearOrder β] (key : α → β) : List α → List α
  | [] => []
  | a :: l => insertByKey key a (sortByKey key l)

theorem perm_insertByKey {α β : Type} [LinearOrder β] (key : α → β) (a : α)
    (l : List α) : List.Perm (insertByKey key a l) (a :: l) := by
  induction l with
  | nil => simp [insertByKey]
  | cons b l ih =>
    simp only [insertByKey]
    by_cases h : key b < key a
    · simp only [h, if_true]
      exact (ih.cons b).trans (List.Perm.swap a b l)
    · simp [h]

theorem perm_sortByKey {α β : Type} [LinearOrder β] (key : α → β)
    (l : List α) : List.Perm (sortByKey key l) l := by
  induction l with
  | nil => simp [sortByKey]
  | cons a l ih =>
    exact (perm_insertByKey key a (sortByKey key l)).trans (ih.cons a)

theorem pairwise_insertByKey {α β : Type} [LinearOrder β] (key : α → β)
    (a : α) (l : List α)
    (h : l.Pairwise (fun x y => key x ≤ key y)) :
    (insertByKey key a l).Pairwise (fun x y => key x ≤ key y) := by
  induction l with
  | nil => simp [insertByKey]
  | cons b l ih =>
    simp only [insertByKey]
    rcases List.pairwise_cons.mp h with ⟨hb, hl⟩
    by_cases hba : key b < key a
    · simp only [hba, if_true]
      refine List.pairwise_cons.mpr ⟨?_, ih hl⟩
      intro x hx
      rcases List.mem_cons.mp ((perm_insertByKey key a l).mem_iff.mp hx) with
        hxa | hxl
      · subst hxa; exact le_of_lt hba
      · exact hb x hxl
    · simp only [hba, if_false]
      refine List.pairwise_cons.mpr ⟨?_, h⟩
      intro x hx
      have hab : key a ≤ key b := le_of_not_lt hba
      rcases List.mem_cons.mp hx with hxb | hxl
      · subst hxb; exact hab
      · exact le_trans hab (hb x hxl)

theorem pairwise_sortByKey {α β : Type} [LinearOrder β] (key : α → β)
    (l : List α) :
    (sortByKey key l).Pairwise (fun x y => key x ≤ key y) := by
  induction l with
  | nil => simp [sortByKey]
  | cons a l ih => exact pairwise_insertByKey key a _ ih

/-- The inner `for i, node in enumerate(valid_nodes)` loop of
`resolve_path_stack`, run on the sorted candidate list: a node with
bound ≤ target is chosen if it is the last candidate, or if the next
candidate's bound exceeds the target (then `break`); a node with bound >
target `break`s the loop with no choice made. -/
def findBest (target : ℚ) : List DDCNode → Option DDCNode
  | [] => none
  | [n] => if n.numKey ≤ target then some n else none
  | n :: m :: l =>
    if n.numKey ≤ target then
      if target < m.numKey then some n
      else findBest target (m :: l)
    else none

theorem findBest_mem {target : ℚ} {b : DDCNode} :
    ∀ {l : List DDCNode}, findBest target l = some b → b ∈ l
  | [], h => by simp [findBest] at h
  | [n], h => by
    by_cases hn : n.numKey ≤ target
    · simp only [findBest, hn, if_true, Option.some.injEq] at h
      subst h; exact List.mem_singleton_self n
    · simp [findBest, hn] at h
  | n :: m :: l, h => by
    by_cases hn : n.numKey ≤ target
    · by_cases hm : target < m.numKey
      · simp only [findBest, hn, if_true, hm, Option.some.injEq] at h
        subst h; exact List.mem_cons_self n (m :: l)
      · simp only [findBest, hn, if_true, hm, if_false] at h
        exact List.mem_cons_of_mem n (findBest_mem h)
    · simp [findBest, hn] at h

theorem sizeOf_subordinates_lt (n : DDCNode) :
    sizeOf n.subordinates < sizeOf n := by
  cases n with
  | mk num i d s => simp [DDCNode.subordinates]

/-- The `while current_candidates:` loop of `resolve_path_stack`: pick
the best node at this level, append it, and descend into its
subordinates; stop as soon as no node is selected.  (On an empty
candidate list `findBest` returns `none`, which coincides with the
`while` guard failing.) -/
def resolveGo (target : ℚ) (cands : List DDCNode) : List DDCNode :=
  match h : findBest target (sortByKey DDCNode.numKey (validNodes cands)) with
  | none => []
  | some best => best :: resolveGo target best.subordinates
termination_by sizeOf cands
decreasing_by
  have hmem : best ∈ cands := by
    have h1 : best ∈ sortByKey DDCNode.numKey (validNodes cands) :=
      findBest_mem h
    have h2 : best ∈ validNodes cands :=
      (perm_sortByKey DDCNode.numKey (validNodes cands)).mem_iff.mp h1
    exact List.mem_of_mem_filter h2
  have h3 : sizeOf best < sizeOf cands := List.sizeOf_lt_of_mem hmem
  have h4 : sizeOf best.subordinates < sizeOf best := sizeOf_subordinates_lt best
  omega

/-- Python `resolve_path_stack(ddc_code, ddc_tree)`.  The code argument is
`None` or a Python string; `if not ddc_code: return []` is Python's
falsiness test (true for `None` and for the empty string). -/
def resolve_path_stack (ddc_code : Option PyStr) (ddc_tree : List DDCNode) :
    List DDCNode :=
  match ddc_code with
  | none => []
  | some s => if s.str = "" then [] else resolveGo (parse_ddc_num s) ddc_tree

/-- Depth of a classification forest: one more than the deepest
subordinate chain; the empty forest has depth 0. -/
def forestDepth : List DDCNode → ℕ
  | [] => 0
  | .mk _ _ _ subs :: l => max (1 + forestDepth subs) (forestDepth l)

theorem resolveGo_none {target : ℚ} {cands : List DDCNode}
    (h : findBest target (sortByKey DDCNode.numKey (validNodes cands)) = none) :
    resolveGo target cands = [] := by
  rw [resolveGo]
  split
  · rfl
  · next best hsome => rw [h] at hsome; exact absurd hsome (by simp)

theorem resolveGo_some {target : ℚ} {cands : List DDCNode} {b : DDCNode}
    (h : findBest target (sortByKey DDCNode.numKey (validNodes cands)) = some b) :
    resolveGo target cands = b :: resolveGo target b.subordinates := by
  rw [resolveGo]
  split
  · next hnone => rw [h] at hnone; exact absurd hnone (by simp)
  · next best hsome =>
    rw [h] at hsome
    obtain rfl : b = best := by injection hsome
    rfl

/-- On a list sorted ascending by `numKey`, `findBest` returns a node
whose bound is ≤ the target and maximal among the listed bounds that
are ≤ the target. -/
theorem findBest_spec {target : ℚ} {b : DDCNode} :
    ∀ {l : List DDCNode}, l.Pairwise (fun x y => x.numKey ≤ y.numKey) →
      findBest target l = some b →
      b.numKey ≤ target ∧ ∀ n ∈ l, n.numKey ≤ target → n.numKey ≤ b.numKey
  | [], _, h => by simp [findBest] at h
  | [n], _, h => by
    by_cases hn : n.numKey ≤ target
    · simp only [findBest, hn, if_true, Option.some.injEq] at h
      subst h
      exact ⟨hn, by intro x hx _; rcases List.mem_singleton.mp hx with rfl; rfl⟩
    · simp [findBest, hn] at h
  | n :: m :: l, hp, h => by
    rcases List.pairwise_cons.mp hp with ⟨hn_le, hp'⟩
    by_cases hn : n.numKey ≤ target
    · by_cases hm : target < m.numKey
      · simp only [findBest, hn, if_true, hm, Option.some.injEq] at h
        subst h
        refine ⟨hn, ?_⟩
        intro x hx hxt
        rcases List.mem_cons.mp hx with rfl | hx'
        · rfl
        · exfalso
          have hmx : m.numKey ≤ x.numKey := by
            rcases List.mem_cons.mp hx' with rfl | hx''
            · rfl
            · exact (List.pairwise_cons.mp hp').1 x hx''
          exact absurd hxt (not_le.mpr (lt_of_lt_of_le hm hmx))
      · simp only [findBest, hn, if_true, hm, if_false] at h
        obtain ⟨hb, hmax⟩ := findBest_spec hp' h
        refine ⟨hb, ?_⟩
        intro x hx hxt
        rcases List.mem_cons.mp hx with rfl | hx'
        · exact le_trans (hn_le m (List.mem_cons_self m l))
            (hmax m (List.mem_cons_self m l)
              (le_of_not_lt hm))
        · exact hmax x hx' hxt
    · simp [findBest, hn] at h

/-- The property claimed for a resolved chain: each element is a valid
candidate of its level with bound ≤ the target, its bound is the largest
such bound among the level's valid candidates, and the tail is tight for
its subordinates. -/
def chainTight (target : ℚ) : List DDCNode → List DDCNode → Prop
  | _, [] => True
  | cands, b :: rest =>
    b ∈ cands ∧ b.number.isSome = true ∧ b.numKey ≤ target ∧
      (∀ n ∈ cands, n.number.isSome = true → n.numKey ≤ target →
        n.numKey ≤ b.numKey) ∧
      chainTight target b.subordinates rest

theorem mem_of_findBest_sorted {target : ℚ} {cands : List DDCNode}
    {b : DDCNode}
    (h : findBest target (sortByKey DDCNode.numKey (validNodes cands)) = some b) :
    b ∈ validNodes cands :=
  (perm_sortByKey DDCNode.numKey (validNodes cands)).mem_iff.mp (findBest_mem h)

theorem chainTight_resolveGo (target : ℚ) (cands : List DDCNode) :
    chainTight target cands (resolveGo target cands) := by
  match h : findBest target (sortByKey DDCNode.numKey (validNodes cands)) with
  | none =>
    rw [resolveGo_none h]
    trivial
  | some b =>
    rw [resolveGo_some h]
    have hvalid : b ∈ validNodes cands := mem_of_findBest_sorted h
    have hmem : b ∈ cands := List.mem_of_mem_filter hvalid
    have hsome : b.number.isSome = true := by
      have := List.mem_filter.mp hvalid
      simpa using this.2
    obtain ⟨hb, hmax⟩ :=
      findBest_spec (pairwise_sortByKey DDCNode.numKey (validNodes cands)) h
    refine ⟨hmem, hsome, hb, ?_, chainTight_resolveGo target b.subordinates⟩
    intro n hn hns hnt
    have hn' : n ∈ sortByKey DDCNode.numKey (validNodes cands) := by
      refine (perm_sortByKey DDCNode.numKey (validNodes cands)).mem_iff.mpr ?_
      exact List.mem_filter.mpr ⟨hn, by simpa using hns⟩
    exact hmax n hn' hnt
termination_by sizeOf cands
decreasing_by
  have h3 : sizeOf b < sizeOf cands :=
    List.sizeOf_lt_of_mem (List.mem_of_mem_filter (mem_of_findBest_sorted h))
  have h4 : sizeOf b.subordinates < sizeOf b := sizeOf_subordinates_lt b
  omega

theorem forestDepth_of_mem {b : DDCNode} :
    ∀ {cands : List DDCNode}, b ∈ cands →
      1 + forestDepth b.subordinates ≤ forestDepth cands := by
  intro cands
  induction cands with
  | nil => intro h; simp at h
  | cons hd tl ih =>
    intro h
    rcases List.mem_cons.mp h with rfl | h'
    · cases b with
      | mk n i d s =>
        simp only [forestDepth, DDCNode.subordinates]
        exact le_max_left _ _
    · cases hd with
      | mk n i d s =>
        simp only [forestDepth]
        exact le_trans (ih h') (le_max_right _ _)

theorem length_resolveGo_le (target : ℚ) (cands : List DDCNode) :
    (resolveGo target cands).length ≤ forestDepth cands := by
  match h : findBest target (sortByKey DDCNode.numKey (validNodes cands)) with
  | none =>
    rw [resolveGo_none h]
    exact Nat.zero_le _
  | some b =>
    rw [resolveGo_some h]
    have hmem : b ∈ cands := List.mem_of_mem_filter (mem_of_findBest_sorted h)
    have hlen : (resolveGo target b.subordinates).length ≤
        forestDepth b.subordinates := length_resolveGo_le target b.subordinates
    have := forestDepth_of_mem hmem
    simp only [List.length_cons]
    omega
termination_by sizeOf cands
decreasing_by
  have h3 : sizeOf b < sizeOf cands :=
    List.sizeOf_lt_of_mem (List.mem_of_mem_filter (mem_of_findBest_sorted h))
  have h4 : sizeOf b.subordinates < sizeOf b := sizeOf_subordinates_lt b
  omega

/-- The top-level range `{number: 0, id: "0", description: "General"}`
from the spec's concrete scenario (`str(0) = "0"`, `float("0") = 0.0`). -/
def genNode : DDCNode := .mk (some ⟨"0", some 0⟩) (some "0") (some "General") []

/-- The top-level range `{number: 500, id: "5", description: "Science"}`
from the spec's concrete scenario. -/
def sciNode : DDCNode :=
  .mk (some ⟨"500", some 500⟩) (some "5") (some "Science") []

/-- The two-range table of the spec's concrete scenario. -/
def tableC4 : List DDCNode := [genNode, sciNode]

/-- C2: for every classification code and range table,
`resolve_path_stack` returns a tight chain — each successive range is a
valid candidate of its depth whose bound is ≤ the code's numeric value
and is the largest such bound at that depth — and the chain's length
never exceeds the depth of the table. -/
theorem resolve_chain_tight_and_depth_bounded :
    ∀ (s : PyStr) (T : List DDCNode),
      chainTight (parse_ddc_num s) T (resolve_path_stack (some s) T) ∧
        ∀ (c : Option PyStr), (resolve_path_stack c T).length ≤ forestDepth T := by
  intro s T
  constructor
  · by_cases h : s.str = ""
    · simp only [resolve_path_stack, h, if_true]
      trivial
    · simp only [resolve_path_stack, h, if_false]
      exact chainTight_resolveGo (parse_ddc_num s) T
  · intro c
    match c with
    | none => simp [resolve_path_stack]
    | some s' =>
      by_cases h : s'.str = ""
      · simp [resolve_path_stack, h]
      · simp only [resolve_path_stack, h, if_false]
        exact length_resolveGo_le (parse_ddc_num s') T

/-- C4: on the two-range table, code `"520"` resolves to the single
chain `[sciNode]` (its id is `"5"`), and code `"050"` (numeric value
`50.0`) resolves to `[genNode]` (its id is `"0"`). -/
theorem resolve_concrete_table_scenario :
    resolve_path_stack (some ⟨"520", some 520⟩) tableC4 = [sciNode] ∧
      sciNode.id = some "5" ∧
      resolve_path_stack (some ⟨"050", some 50⟩) tableC4 = [genNode] ∧
      genNode.id = some "0" := by
  have h1 : resolveGo (520 : ℚ) tableC4 =
      sciNode :: resolveGo 520 sciNode.subordinates := resolveGo_some rfl
  have h2 : resolveGo (520 : ℚ) sciNode.subordinates = [] := resolveGo_none rfl
  have h3 : resolveGo (50 : ℚ) tableC4 =
      genNode :: resolveGo 50 genNode.subordinates := resolveGo_some rfl
  have h4 : resolveGo (50 : ℚ) genNode.subordinates = [] := resolveGo_none rfl
  refine ⟨?_, rfl, ?_, rfl⟩
  · simp [resolve_path_stack, parse_ddc_num, h1, h2]
  · simp [resolve_path_stack, parse_ddc_num, h3, h4]

/-- C5: `resolve_path_stack` returns the empty chain for `None` and for
the empty string, on every table. -/
theorem resolve_empty_code_returns_nil :
    ∀ (T : List DDCNode), resolve_path_stack none T = [] ∧
      ∀ (s : PyStr), s.str = "" → resolve_path_stack (some s) T = [] := by
  intro T
  refine ⟨rfl, ?_⟩
  intro s h
  simp [resolve_path_stack, h]

theorem resolve_empty_code_returns_nil_witness :
    resolve_path_stack none tableC4 = [] ∧
      resolve_path_stack (some ⟨"", none⟩) tableC4 = [] :=
  ⟨(resolve_empty_code_returns_nil tableC4).1,
    (resolve_empty_code_returns_nil tableC4).2 ⟨"", none⟩ rfl⟩

/-- C6: a non-empty code string that `float` rejects is silently treated
as the numeric value `0.0`: `resolve_path_stack` behaves exactly as it
would on a code of numeric value `0.0`, and a range whose `number` field
is non-numeric gets sort key `0.0` (via `parse_ddc_num`). -/
theorem resolve_nonnumeric_code_as_zero :
    ∀ (s : PyStr), s.str ≠ "" → s.toFloat = none →
      (∀ (T : List DDCNode),
        resolve_path_stack (some s) T =
          resolve_path_stack (some ⟨"0.0", some 0⟩) T) ∧
      parse_ddc_num s = 0 ∧
      ∀ (n : DDCNode), n.number = some s → n.numKey = 0 := by
  intro s hne hnum
  have hp : parse_ddc_num s = 0 := by simp [parse_ddc_num, hnum]
  refine ⟨?_, hp, ?_⟩
  · intro T
    simp only [resolve_path_stack, hne, if_false]
    have : ("0.0" : String) = "" ↔ False := by simp
    simp only [this, if_false]
    rw [hp]
    rfl
  · intro n hn
    simp [DDCNode.numKey, hn, hp]

theorem resolve_nonnumeric_code_as_zero_witness :
    resolve_path_stack (some ⟨"abc", none⟩) tableC4 =
        resolve_path_stack (some ⟨"0.0", some 0⟩) tableC4 ∧
      parse_ddc_num ⟨"abc", none⟩ = 0 ∧
      (DDCNode.mk (some ⟨"abc", none⟩) none none []).numKey = 0 :=
  ⟨(resolve_nonnumeric_code_as_zero ⟨"abc", none⟩ (by simp) rfl).1 tableC4,
    (resolve_nonnumeric_code_as_zero ⟨"abc", none⟩ (by simp) rfl).2.1,
    (resolve_nonnumeric_code_as_zero ⟨"abc", none⟩ (by simp) rfl).2.2 _ rfl⟩

/-- A file attached to the virtual tree: the `(src_path, filename)` pair
passed to `add_file`. -/
abbrev FileInfo := String × String

/-- A node of the in-memory destination tree (`class LibraryNode`).
`children` models the Python dict: an insertion-ordered association
list with unique keys. -/
inductive LibraryNode where
  | mk (folder_name : String) (full_path : String) (files : List FileInfo)
      (children : List (String × LibraryNode)) (ddc_def : Option DDCNode)

def LibraryNode.folder_name : LibraryNode → String
  | .mk fn _ _ _ _ => fn

def LibraryNode.full_path : LibraryNode → String
  | .mk _ fp _ _ _ => fp

def LibraryNode.files : LibraryNode → List FileInfo
  | .mk _ _ fs _ _ => fs

def LibraryNode.children : LibraryNode → List (String × LibraryNode)
  | .mk _ _ _ cs _ => cs

def LibraryNode.ddc_def : LibraryNode → Option DDCNode
  | .mk _ _ _ _ d => d

mutual

/-- Python `get_all_files_recursive(node)`: this node's own files followed by
every file in its children's subtrees. -/
def get_all_files_recursive : LibraryNode → List FileInfo
  | .mk _ _ files children _ => files ++ getAllFilesChildren children

def getAllFilesChildren : List (String × LibraryNode) → List FileInfo
  | [] => []
  | (_, c) :: rest => get_all_files_recursive c ++ getAllFilesChildren rest

end

/-- Model of `os.path.join` on the POSIX-style paths the script builds. -/
def joinPath (a b : String) : String := a ++ "/" ++ b

/-- The per-node decisions of one invocation of `balance_and_execute`
(the plan of its side effects; `dry_run` only switches between printing
and executing the same plan). -/
structure NodePlan where
  path : String
  childKeys : List String
  activeKeys : List String
  staying : List FileInfo
  creates : Bool
  moves : List (String × String)

/-- The greedy marking loop: `for key in sorted_keys: if current_load >
threshold: mark key, subtract its group size; else: break`.  Returns the
marked keys in marking order together with the final `current_load`. -/
def markActive (threshold : ℕ) : ℕ → List (String × List FileInfo) →
    List String × ℕ
  | load, [] => ([], load)
  | load, (k, g) :: rest =>
    if threshold < load then
      let r := markActive threshold (load - g.length) rest
      (k :: r.1, r.2)
    else ([], load)

/-- Python `sorted(keys, key=lambda k: len(groups[k]), reverse=True)`: a stable
descending sort by group size (ties keep dict insertion order), modelled
as the stable ascending sort under the dual order on sizes. -/
def sortGroupsDesc (l : List (String × List FileInfo)) :
    List (String × List FileInfo) :=
  sortByKey (fun g => OrderDual.toDual g.2.length) l

/-- The child entries of `groups`: for each immediate child, its key
paired with the recursively flattened file list under it (`groups[None]`
is `node.files` and is kept separate). -/
def groupsOf (node : LibraryNode) : List (String × List FileInfo) :=
  node.children.map (fun kc => (kc.1, get_all_files_recursive kc.2))

/-- Total length of the grouped file lists. -/
def sumLens (l : List (String × List FileInfo)) : ℕ :=
  (l.map (fun g => g.2.length)).sum

/-- The local `total_files = sum(len(f_list) for f_list in groups.values())`. -/
def totalFiles (node : LibraryNode) : ℕ :=
  node.files.length + sumLens (groupsOf node)

/-- The locals `active_subfolders` (in marking order) and the final `current_load`
after the greedy loop. -/
def activeLoad (threshold : ℕ) (node : LibraryNode) : List String × ℕ :=
  markActive threshold (totalFiles node) (sortGroupsDesc (groupsOf node))

/-- The local `files_staying`: the node's own files followed by the groups of the
children that were not marked active, in dict insertion order. -/
def filesStaying (threshold : ℕ) (node : LibraryNode) : List FileInfo :=
  node.files ++
    ((groupsOf node).filter
      (fun g => decide (g.1 ∉ (activeLoad threshold node).1))).flatMap
      (fun g => g.2)

/-- One invocation of `balance_and_execute` on `node` as a pure plan:
the grouping, the greedy marking, the `os.makedirs` decision, the files
staying at this level, and the `shutil.move` calls performed
(`os.path.abspath` is the identity on the canonical absolute paths the
script works with, so the move-skip test compares the paths directly). -/
def mkNodePlan (threshold : ℕ) (node : LibraryNode) : NodePlan :=
  { path := node.full_path
    childKeys := node.children.map Prod.fst
    activeKeys := (activeLoad threshold node).1
    staying := filesStaying threshold node
    creates := (decide (0 < node.files.length) ||
      decide (node.files.length < (activeLoad threshold node).2)) ||
      !(activeLoad threshold node).1.isEmpty
    moves := (filesStaying threshold node).filterMap (fun f =>
      let dst := joinPath node.full_path f.2
      if f.1 = dst then none else some (f.1, dst)) }

theorem sizeOf_children_lt (node : LibraryNode) :
    sizeOf node.children < sizeOf node := by
  cases node with
  | mk fn fp fs cs d => simp [LibraryNode.children]; omega

mutual

/-- Python `balance_and_execute`, as the list of per-node plans in visit
order: the current node's plan followed by the plans of the recursive
calls on each active child. -/
def balancePlan (threshold : ℕ) : LibraryNode → List NodePlan
  | node =>
    let plan := mkNodePlan threshold node
    plan :: balancePlanChildren threshold plan.activeKeys node.children
termination_by node => sizeOf node
decreasing_by
  exact sizeOf_children_lt node

/-- The `for key in active_subfolders: balance_and_execute(...)` loop:
recurse into exactly the children whose key was marked active. -/
def balancePlanChildren (threshold : ℕ) (keys : List String) :
    List (String × LibraryNode) → List NodePlan
  | [] => []
  | (k, c) :: rest =>
    (if k ∈ keys then balancePlan threshold c else []) ++
      balancePlanChildren threshold keys rest
termination_by l => sizeOf l
decreasing_by
  all_goals simp
  omega

end

theorem sumLens_append (l₁ l₂ : List (String × List FileInfo)) :
    sumLens (l₁ ++ l₂) = sumLens l₁ + sumLens l₂ := by
  simp [sumLens]

theorem sumLens_perm {l₁ l₂ : List (String × List FileInfo)}
    (h : List.Perm l₁ l₂) : sumLens l₁ = sumLens l₂ :=
  List.Perm.sum_eq (h.map _)

theorem sumLens_filter_le (p : String × List FileInfo → Bool)
    (l : List (String × List FileInfo)) : sumLens (l.filter p) ≤ sumLens l := by
  induction l with
  | nil => simp [sumLens]
  | cons hd rest ih =>
    by_cases h : p hd = true
    · rw [List.filter_cons_of_pos h]
      simp only [sumLens, List.map_cons, List.sum_cons] at *
      omega
    · rw [List.filter_cons_of_neg h]
      simp only [sumLens, List.map_cons, List.sum_cons] at *
      omega

/-- Decomposition of the greedy loop: the sorted group list splits into
the marked prefix `l₁` and the untouched suffix `l₂`; the final load is
the initial one minus the marked sizes; and if the loop stopped before
the end of the list, the final load is ≤ the threshold. -/
theorem markActive_spec (t : ℕ) :
    ∀ (l : List (String × List FileInfo)) (load : ℕ),
      ∃ l₁ l₂, l = l₁ ++ l₂ ∧
        (markActive t load l).1 = l₁.map Prod.fst ∧
        (markActive t load l).2 = load - sumLens l₁ ∧
        (l₂ ≠ [] → (markActive t load l).2 ≤ t) := by
  intro l
  induction l with
  | nil =>
    intro load
    exact ⟨[], [], rfl, rfl, by simp [markActive, sumLens], by simp⟩
  | cons hd rest ih =>
    intro load
    obtain ⟨k, g⟩ := hd
    by_cases h : t < load
    · obtain ⟨l₁, l₂, heq, h1, h2, h3⟩ := ih (load - g.length)
      refine ⟨(k, g) :: l₁, l₂, by rw [List.cons_append, heq], ?_, ?_, ?_⟩
      · simp [markActive, h, h1]
      · simp only [markActive, h, if_true]
        rw [h2]
        simp only [sumLens, List.map_cons, List.sum_cons]
        simp only [sumLens] at *
        omega
      · intro hne
        simp only [markActive, h, if_true]
        exact h3 hne
    · refine ⟨[], (k, g) :: rest, rfl, ?_, ?_, ?_⟩
      · simp [markActive, h]
      · simp [markActive, h, sumLens]
      · intro _
        simp only [markActive, h, if_false]
        omega

theorem groupsOf_keys (node : LibraryNode) :
    (groupsOf node).map Prod.fst = node.children.map Prod.fst := by
  simp [groupsOf]

theorem perm_sortGroupsDesc (l : List (String × List FileInfo)) :
    List.Perm (sortGroupsDesc l) l :=
  perm_sortByKey _ l

theorem get_all_files_eq (node : LibraryNode) :
    get_all_files_recursive node =
      node.files ++ getAllFilesChildren node.children := by
  cases node with
  | mk fn fp fs cs d => rfl

theorem getAllFilesChildren_eq_flatMap :
    ∀ (children : List (String × LibraryNode)),
      getAllFilesChildren children =
        children.flatMap (fun kc => get_all_files_recursive kc.2)
  | [] => rfl
  | (k, c) :: rest => by
    rw [getAllFilesChildren, List.flatMap_cons,
      getAllFilesChildren_eq_flatMap rest]

theorem filesStaying_eq (t : ℕ) (node : LibraryNode) :
    filesStaying t node = node.files ++
      (node.children.filter
        (fun kc => decide (kc.1 ∉ (activeLoad t node).1))).flatMap
        (fun kc => get_all_files_recursive kc.2) := by
  simp only [filesStaying, groupsOf, List.filter_map, List.flatMap_map]
  rfl

theorem length_filesStaying (t : ℕ) (node : LibraryNode) :
    (filesStaying t node).length = node.files.length +
      sumLens ((groupsOf node).filter
        (fun g => decide (g.1 ∉ (activeLoad t node).1))) := by
  simp only [filesStaying, List.length_append, List.length_flatMap, sumLens,
    Function.comp_def]

/-- Core of the balancing invariant: at every node, either the files
staying at this level fit the threshold, or every child key was marked
active (the greedy loop consumed the whole sorted list — in particular
this happens when the direct files alone exceed the threshold). -/
theorem staying_le_or_all_active (t : ℕ) (node : LibraryNode) :
    (filesStaying t node).length ≤ t ∨
      ∀ k ∈ node.children.map Prod.fst, k ∈ (activeLoad t node).1 := by
  obtain ⟨l₁, l₂, heq, h1, h2, h3⟩ :=
    markActive_spec t (sortGroupsDesc (groupsOf node)) (totalFiles node)
  have hperm : List.Perm (sortGroupsDesc (groupsOf node)) (groupsOf node) :=
    perm_sortGroupsDesc (groupsOf node)
  rcases eq_or_ne l₂ [] with hl2 | hl2
  · right
    intro k hk
    have hk' : k ∈ (groupsOf node).map Prod.fst := by
      rw [groupsOf_keys]; exact hk
    have hk'' : k ∈ (sortGroupsDesc (groupsOf node)).map Prod.fst :=
      ((hperm.map Prod.fst).mem_iff).mpr hk'
    rw [heq, hl2, List.append_nil] at hk''
    rw [show (activeLoad t node).1 =
      (markActive t (totalFiles node) (sortGroupsDesc (groupsOf node))).1
      from rfl, h1]
    exact hk''
  · left
    have hload : (activeLoad t node).2 ≤ t := h3 hl2
    have hfilter₁ :
        l₁.filter (fun g => decide (g.1 ∉ (activeLoad t node).1)) = [] := by
      rw [List.filter_eq_nil_iff]
      intro a ha
      simp only [decide_eq_true_eq, not_not]
      rw [show (activeLoad t node).1 =
        (markActive t (totalFiles node) (sortGroupsDesc (groupsOf node))).1
        from rfl, h1]
      exact List.mem_map_of_mem Prod.fst ha
    have hsum : sumLens ((groupsOf node).filter
        (fun g => decide (g.1 ∉ (activeLoad t node).1))) ≤ sumLens l₂ := by
      have e1 : sumLens ((groupsOf node).filter
          (fun g => decide (g.1 ∉ (activeLoad t node).1))) =
          sumLens ((l₁ ++ l₂).filter
            (fun g => decide (g.1 ∉ (activeLoad t node).1))) := by
        refine sumLens_perm ?_
        refine List.Perm.filter _ ?_
        exact (heq ▸ hperm).symm
      rw [e1, List.filter_append, sumLens_append, hfilter₁]
      simp only [sumLens, List.map_nil, List.sum_nil, Nat.zero_add]
      exact sumLens_filter_le _ l₂
    have htot : totalFiles node =
        node.files.length + (sumLens l₁ + sumLens l₂) := by
      have : sumLens (groupsOf node) = sumLens l₁ + sumLens l₂ := by
        rw [← sumLens_append, ← heq]
        exact sumLens_perm hperm.symm
      rw [totalFiles, this]
    have hload2 : (activeLoad t node).2 =
        totalFiles node - sumLens l₁ := h2
    rw [length_filesStaying]
    omega

/-- Core of the directory-creation condition: the `os.makedirs` guard
`has_content_here or active_subfolders` holds iff some file stays at
this level or some child was marked active. -/
theorem creates_iff_core (t : ℕ) (node : LibraryNode) :
    ((0 < node.files.length ∨ node.files.length < (activeLoad t node).2) ∨
        (activeLoad t node).1 ≠ []) ↔
      (filesStaying t node ≠ [] ∨ (activeLoad t node).1 ≠ []) := by
  obtain ⟨l₁, l₂, heq, h1, h2, h3⟩ :=
    markActive_spec t (sortGroupsDesc (groupsOf node)) (totalFiles node)
  have hperm : List.Perm (sortGroupsDesc (groupsOf node)) (groupsOf node) :=
    perm_sortGroupsDesc (groupsOf node)
  have hlen : (filesStaying t node).length = node.files.length +
      sumLens ((groupsOf node).filter
        (fun g => decide (g.1 ∉ (activeLoad t node).1))) :=
    length_filesStaying t node
  have hne_len : filesStaying t node ≠ [] ↔
      0 < (filesStaying t node).length := by
    rw [List.length_pos]
  have hempty_load : (activeLoad t node).1 = [] →
      (activeLoad t node).2 = totalFiles node := by
    intro hmt
    have : l₁ = [] := by
      have := h1
      rw [show (markActive t (totalFiles node)
        (sortGroupsDesc (groupsOf node))).1 = (activeLoad t node).1 from rfl,
        hmt] at this
      exact (List.map_eq_nil_iff).mp this.symm
    rw [show (activeLoad t node).2 =
      totalFiles node - sumLens l₁ from h2, this]
    simp [sumLens]
  have hempty_filter : (activeLoad t node).1 = [] →
      ((groupsOf node).filter
        (fun g => decide (g.1 ∉ (activeLoad t node).1))) = groupsOf node := by
    intro hmt
    rw [hmt]
    simp
  constructor
  · rintro ((hf | hl) | ha)
    · left
      rw [hne_len, hlen]
      omega
    · by_cases ha : (activeLoad t node).1 = []
      · left
        rw [hne_len, hlen, hempty_filter ha]
        have := hempty_load ha
        rw [this, totalFiles] at hl
        omega
      · right; exact ha
    · right; exact ha
  · rintro (hs | ha)
    · rw [hne_len, hlen] at hs
      by_cases hf : 0 < node.files.length
      · exact Or.inl (Or.inl hf)
      · by_cases ha : (activeLoad t node).1 = []
        · left; right
          have hload := hempty_load ha
          have hfil := hempty_filter ha
          rw [hfil] at hs
          rw [hload, totalFiles]
          omega
        · right; exact ha
    · right; exact ha

mutual

/-- Every plan emitted by the distributor is the per-node plan of some
node (the nodes actually visited by the recursion). -/
theorem mem_balancePlan_shape (t : ℕ) (node : LibraryNode) :
    ∀ p ∈ balancePlan t node, ∃ n', p = mkNodePlan t n' := by
  intro p hp
  rw [balancePlan] at hp
  rcases List.mem_cons.mp hp with hph | hpt
  · exact ⟨node, hph⟩
  · exact mem_balancePlanChildren_shape t (mkNodePlan t node).activeKeys
      node.children p hpt
termination_by sizeOf node
decreasing_by exact sizeOf_children_lt node

theorem mem_balancePlanChildren_shape (t : ℕ) (keys : List String) :
    ∀ (children : List (String × LibraryNode)),
      ∀ p ∈ balancePlanChildren t keys children, ∃ n', p = mkNodePlan t n'
  | [] => by
    intro p hp
    rw [balancePlanChildren] at hp
    simp at hp
  | (k, c) :: rest => by
    intro p hp
    rw [balancePlanChildren] at hp
    rcases List.mem_append.mp hp with hl | hr
    · by_cases hk : k ∈ keys
      · rw [if_pos hk] at hl
        exact mem_balancePlan_shape t c p hl
      · rw [if_neg hk] at hl
        simp at hl
    · exact mem_balancePlanChildren_shape t keys rest p hr
termination_by children => sizeOf children
decreasing_by
  all_goals simp
  omega

end

/-- Concatenation of the per-node `files_staying` lists over a list of
plans. -/
def plansStaying (ps : List NodePlan) : List FileInfo :=
  ps.flatMap (fun p => p.staying)

theorem plansStaying_append (l₁ l₂ : List NodePlan) :
    plansStaying (l₁ ++ l₂) = plansStaying l₁ ++ plansStaying l₂ := by
  simp [plansStaying]

/-- Per-node split: the files staying at a node plus the flattened
subtrees of its active children are a permutation of the node's whole
flattened file list. -/
theorem staying_active_perm (t : ℕ) (node : LibraryNode) :
    List.Perm
      (filesStaying t node ++
        (node.children.filter
          (fun kc => decide (kc.1 ∈ (activeLoad t node).1))).flatMap
          (fun kc => get_all_files_recursive kc.2))
      (get_all_files_recursive node) := by
  rw [filesStaying_eq, get_all_files_eq, getAllFilesChildren_eq_flatMap]
  rw [List.append_assoc]
  refine List.Perm.append_left node.files ?_
  rw [← List.flatMap_append]
  refine List.Perm.flatMap_right _ ?_
  have hnot : (fun kc : String × LibraryNode =>
      decide (kc.1 ∉ (activeLoad t node).1)) =
      (fun kc : String × LibraryNode =>
        !(decide (kc.1 ∈ (activeLoad t node).1))) := by
    funext kc
    simp [decide_not]
  rw [hnot]
  refine List.Perm.trans List.perm_append_comm ?_
  exact List.filter_append_perm _ node.children

mutual

/-- Global accounting: all files staying anywhere in the visited plans
are a permutation of the root's flattened file list. -/
theorem balance_partition_go (t : ℕ) (node : LibraryNode) :
    List.Perm (plansStaying (balancePlan t node))
      (get_all_files_recursive node) := by
  rw [balancePlan]
  have hrec := balance_partition_children t (mkNodePlan t node).activeKeys
    node.children
  have hstay : (mkNodePlan t node).staying = node.files ++
      (node.children.filter
        (fun kc => decide (kc.1 ∉ (activeLoad t node).1))).flatMap
        (fun kc => get_all_files_recursive kc.2) := filesStaying_eq t node
  have hact : (mkNodePlan t node).activeKeys = (activeLoad t node).1 := rfl
  rw [show plansStaying (mkNodePlan t node ::
      balancePlanChildren t (mkNodePlan t node).activeKeys node.children) =
    (mkNodePlan t node).staying ++
      plansStaying (balancePlanChildren t (mkNodePlan t node).activeKeys
        node.children) by simp [plansStaying]]
  rw [hstay, get_all_files_eq, getAllFilesChildren_eq_flatMap, hact] at *
  rw [List.append_assoc]
  refine List.Perm.append_left node.files ?_
  refine List.Perm.trans (List.Perm.append_left _ hrec) ?_
  rw [← List.flatMap_append]
  refine List.Perm.flatMap_right _ ?_
  have hnot : (fun kc : String × LibraryNode =>
      decide (kc.1 ∉ (activeLoad t node).1)) =
      (fun kc : String × LibraryNode =>
        !(decide (kc.1 ∈ (activeLoad t node).1))) := by
    funext kc
    simp [decide_not]
  rw [hnot]
  refine List.Perm.trans List.perm_append_comm ?_
  exact List.filter_append_perm _ node.children
termination_by sizeOf node
decreasing_by exact sizeOf_children_lt node

theorem balance_partition_children (t : ℕ) (keys : List String) :
    ∀ (children : List (String × LibraryNode)),
      List.Perm (plansStaying (balancePlanChildren t keys children))
        ((children.filter (fun kc => decide (kc.1 ∈ keys))).flatMap
          (fun kc => get_all_files_recursive kc.2))
  | [] => by
    rw [balancePlanChildren]
    simp [plansStaying]
  | (k, c) :: rest => by
    rw [balancePlanChildren]
    rw [plansStaying_append]
    have hrest := balance_partition_children t keys rest
    by_cases hk : k ∈ keys
    · rw [if_pos hk]
      have hnode := balance_partition_go t c
      rw [List.filter_cons_of_pos (by simpa using hk), List.flatMap_cons]
      exact hnode.append hrest
    · rw [if_neg hk]
      rw [List.filter_cons_of_neg (by simpa using hk)]
      simpa [plansStaying] using hrest
termination_by children => sizeOf children
decreasing_by
  all_goals simp
  omega

end

/-- A list of `n` files tagged `tag`, for building concrete scenarios. -/
def filesN (tag : String) (n : ℕ) : List FileInfo :=
  (List.range n).map (fun i => ("/lib/" ++ tag ++ toString i, tag ++ toString i))

/-- Child of size 8 in the spec's greedy scenario. -/
def childA : LibraryNode := .mk "0 Aaa" "/lib/R/0 Aaa" (filesN "a" 8) [] none

/-- Child of size 15 in the spec's greedy scenario. -/
def childB : LibraryNode := .mk "5 Bbb" "/lib/R/5 Bbb" (filesN "b" 15) [] none

/-- The node of the spec's greedy scenario: 3 direct files plus the two
children of sizes 8 and 15 (total 26). -/
def nodeC3 : LibraryNode :=
  .mk "R" "/lib/R" (filesN "d" 3) [("0", childA), ("5", childB)] none

/-- C3: threshold 10, node with 3 direct files and children of sizes 8
and 15: the greedy loop marks the size-15 child and then the size-8
child active, exactly the 3 direct files stay at this node, and the
recursion visits both children. -/
theorem balance_concrete_greedy_scenario :
    (mkNodePlan 10 nodeC3).activeKeys = ["5", "0"] ∧
      (mkNodePlan 10 nodeC3).staying = filesN "d" 3 ∧
      balancePlan 10 nodeC3 =
        mkNodePlan 10 nodeC3 ::
          (balancePlan 10 childA ++ balancePlan 10 childB) := by
  have hact : (mkNodePlan 10 nodeC3).activeKeys = ["5", "0"] := by
    simp [mkNodePlan, activeLoad, totalFiles, groupsOf, nodeC3, childA, childB,
      filesN, get_all_files_recursive, getAllFilesChildren,
      LibraryNode.children, LibraryNode.files, sortGroupsDesc, sortByKey,
      insertByKey, markActive, sumLens, List.range_succ]
  refine ⟨hact, ?_, ?_⟩
  · simp [mkNodePlan, filesStaying, activeLoad, totalFiles, groupsOf, nodeC3,
      childA, childB, filesN, get_all_files_recursive, getAllFilesChildren,
      LibraryNode.children, LibraryNode.files, sortGroupsDesc, sortByKey,
      insertByKey, markActive, sumLens, List.range_succ]
  · rw [balancePlan]
    rw [hact]
    simp only [nodeC3, LibraryNode.children]
    simp [balancePlanChildren]

/-- Child with one file for the C1 counterexample. -/
def cexChild : LibraryNode :=
  .mk "c X" "/lib/R/c X" [("/lib/x", "x")] [] none

/-- Node with 2 direct files and one child of size 1; with threshold 1
its folder keeps 2 direct files although the child is marked active. -/
def cexNode : LibraryNode :=
  .mk "R" "/lib/R" [("/lib/p", "p"), ("/lib/q", "q")] [("c", cexChild)] none

/-- C1 as stated is false: with threshold 1, `cexNode`'s own folder
receives its 2 direct files (more than the threshold) while its child is
marked active (so it does not have zero active subfolders). -/
theorem balance_threshold_claim_counterexample :
    ¬ (∀ p ∈ balancePlan 1 cexNode,
        p.staying.length ≤ 1 ∨ p.activeKeys = []) := by
  intro h
  have hmem : mkNodePlan 1 cexNode ∈ balancePlan 1 cexNode := by
    rw [balancePlan]
    exact List.mem_cons_self _ _
  have := h (mkNodePlan 1 cexNode) hmem
  have hstay : (mkNodePlan 1 cexNode).staying.length = 2 := by
    simp [mkNodePlan, filesStaying, activeLoad, totalFiles, groupsOf, cexNode,
      cexChild, get_all_files_recursive, getAllFilesChildren,
      LibraryNode.children, LibraryNode.files, sortGroupsDesc, sortByKey,
      insertByKey, markActive, sumLens]
  have hact : (mkNodePlan 1 cexNode).activeKeys = ["c"] := by
    simp [mkNodePlan, activeLoad, totalFiles, groupsOf, cexNode, cexChild,
      get_all_files_recursive, getAllFilesChildren, LibraryNode.children,
      LibraryNode.files, sortGroupsDesc, sortByKey, insertByKey, markActive,
      sumLens]
  rw [hstay, hact] at this
  rcases this with h1 | h2
  · omega
  · exact absurd h2 (by simp)

/-- C1 amended: for every node visited by the distributor, either the
files placed directly in its folder fit the threshold, or every child of
the node was marked active (in particular this covers folders whose
direct files alone exceed the threshold). -/
theorem balance_threshold_or_all_children_active :
    ∀ (t : ℕ) (node : LibraryNode), ∀ p ∈ balancePlan t node,
      p.staying.length ≤ t ∨ ∀ k ∈ p.childKeys, k ∈ p.activeKeys := by
  intro t node p hp
  obtain ⟨n', rfl⟩ := mem_balancePlan_shape t node p hp
  simpa [mkNodePlan] using staying_le_or_all_active t n'

theorem balance_threshold_or_all_children_active_witness :
    (mkNodePlan 1 cexNode).staying.length ≤ 1 ∨
      "c" ∈ (mkNodePlan 1 cexNode).activeKeys := by
  have hmem : mkNodePlan 1 cexNode ∈ balancePlan 1 cexNode := by
    rw [balancePlan]
    exact List.mem_cons_self _ _
  rcases balance_threshold_or_all_children_active 1 cexNode
    (mkNodePlan 1 cexNode) hmem with h | h
  · exact Or.inl h
  · refine Or.inr (h "c" ?_)
    simp [mkNodePlan, cexNode, LibraryNode.children]

/-- C8: a move is emitted only when source and destination differ (the
`shutil.move` is skipped as a no-op when they coincide), so a rerun on a
tree whose files already sit at their computed destinations performs
zero moves. -/
theorem distributor_moves_skip_noop :
    ∀ (t : ℕ) (node : LibraryNode),
      (∀ p ∈ balancePlan t node, ∀ m ∈ p.moves, m.1 ≠ m.2) ∧
      ((∀ p ∈ balancePlan t node, ∀ f ∈ p.staying, f.1 = joinPath p.path f.2) →
        (balancePlan t node).flatMap (fun p => p.moves) = []) := by
  intro t node
  constructor
  · intro p hp m hm
    obtain ⟨n', rfl⟩ := mem_balancePlan_shape t node p hp
    simp only [mkNodePlan, List.mem_filterMap] at hm
    obtain ⟨f, hf, hsome⟩ := hm
    by_cases hEq : f.1 = joinPath n'.full_path f.2
    · simp [hEq] at hsome
    · simp only [hEq, if_false, Option.some.injEq] at hsome
      subst hsome
      exact hEq
  · intro hall
    rw [List.flatMap_eq_nil_iff]
    intro p hp
    have hstay := hall p hp
    obtain ⟨n', rfl⟩ := mem_balancePlan_shape t node p hp
    simp only [mkNodePlan, List.filterMap_eq_nil_iff]
    intro f hf
    have := hstay f (by simpa [mkNodePlan] using hf)
    simp only [mkNodePlan] at this
    simp [this]

/-- A single already-placed file: its source equals the destination the
distributor computes for it. -/
def fixNode : LibraryNode :=
  .mk "5 Science" "/L/5 Science" [("/L/5 Science/b.pdf", "b.pdf")] [] none

theorem distributor_moves_skip_noop_witness :
    (balancePlan 1 fixNode).flatMap (fun p => p.moves) = [] := by
  refine (distributor_moves_skip_noop 1 fixNode).2 ?_
  intro p hp f hf
  rw [balancePlan] at hp
  rw [show balancePlanChildren 1 (mkNodePlan 1 fixNode).activeKeys
      fixNode.children = [] by
    simp only [fixNode, LibraryNode.children]
    rw [balancePlanChildren]] at hp
  rcases List.mem_cons.mp hp with rfl | habs
  · simp only [mkNodePlan, filesStaying, activeLoad, totalFiles, groupsOf,
      fixNode, LibraryNode.children, LibraryNode.files, LibraryNode.full_path,
      sortGroupsDesc, sortByKey, markActive, sumLens, List.map_nil,
      List.sum_nil, List.filter_nil, List.flatMap_nil, List.append_nil] at hf ⊢
    rcases List.mem_singleton.mp hf with rfl
    rfl
  · simp at habs

/-- C9: the node's directory is created exactly when some file stays at
this level or some child was marked active; nodes with neither are never
materialized. -/
theorem makedirs_iff_content_or_active :
    ∀ (t : ℕ) (node : LibraryNode), ∀ p ∈ balancePlan t node,
      p.creates = true ↔ (p.staying ≠ [] ∨ p.activeKeys ≠ []) := by
  intro t node p hp
  obtain ⟨n', rfl⟩ := mem_balancePlan_shape t node p hp
  have hcore := creates_iff_core t n'
  simp only [mkNodePlan, Bool.or_eq_true, decide_eq_true_eq,
    Bool.not_eq_true', List.isEmpty_eq_false]
  constructor
  · intro h
    exact hcore.mp (by tauto)
  · intro h
    have := hcore.mpr h
    tauto

theorem makedirs_iff_content_or_active_witness :
    (mkNodePlan 1 fixNode ∈ balancePlan 1 fixNode) ∧
      ((mkNodePlan 1 fixNode).creates = true ↔
        ((mkNodePlan 1 fixNode).staying ≠ [] ∨
          (mkNodePlan 1 fixNode).activeKeys ≠ [])) := by
  have hmem : mkNodePlan 1 fixNode ∈ balancePlan 1 fixNode := by
    rw [balancePlan]
    exact List.mem_cons_self _ _
  exact ⟨hmem,
    makedirs_iff_content_or_active 1 fixNode (mkNodePlan 1 fixNode) hmem⟩

/-- C10: the distributor accounts for every file exactly once — at each
node, the files staying there plus the flattened subtrees of its active
children are a permutation of its whole flattened file list, and
globally the files staying across all visited nodes are a permutation of
the root's flattened file list. -/
theorem balance_partition_of_files :
    ∀ (t : ℕ) (node : LibraryNode),
      List.Perm
        (filesStaying t node ++
          (node.children.filter
            (fun kc => decide (kc.1 ∈ (activeLoad t node).1))).flatMap
            (fun kc => get_all_files_recursive kc.2))
        (get_all_files_recursive node) ∧
      List.Perm (plansStaying (balancePlan t node))
        (get_all_files_recursive node) :=
  fun t node => ⟨staying_active_perm t node, balance_partition_go t node⟩

/-- Python truthiness of a code value: `None` and the empty string are
falsy. -/
def truthyCode : Option PyStr → Bool
  | none => false
  | some s => !(s.str == "")

/-- Model of `os.path.basename` on the POSIX-style paths the script scans: the
suffix after the last `/`. -/
def basename (p : String) : String :=
  String.mk ((p.data.reverse.takeWhile (fun c => c ≠ '/')).reverse)

/-- Python `clean_asin(ident)` on a matched group: drop `-` and spaces, then
strip. -/
def clean_asin (ident : String) : String :=
  ((ident.replace "-" "").replace " " "").trim

/-- An entry of `meta_map` as built by `load_lt_metadata`: the optional
classification code and publication year. -/
structure MetaEntry where
  ddc : Option PyStr
  year : Option String

/-- Lookup in a Python dict modelled as an insertion-ordered association
list with unique keys. -/
def lookupMap {α : Type} (m : List (String × α)) (k : String) : Option α :=
  match m.find? (fun kv => kv.1 == k) with
  | some kv => some kv.2
  | none => none

/-- Python `get_folder_name(node_def)`: id and description joined by a space, with `/`
replaced by `-` in the description. -/
def get_folder_name (node_def : DDCNode) : String :=
  (node_def.id.getD "???") ++ " " ++
    ((node_def.description.getD "Unknown").replace "/" "-")

/-- The key `node_key = def_data.get('id', str(def_data['number']))`.  Nodes on
a resolved path always carry a `number`; the double-`none` case would be
a Python `KeyError` and is unreachable from `build_virtual_tree`. -/
def nodeKeyOf (d : DDCNode) : String :=
  match d.id with
  | some i => i
  | none =>
    match d.number with
    | some s => s.str
    | none => ""

/-- The metadata-derived code for a filename (`# 1. Metadata Lookup`):
the bracketed identifier regex search is an external `re` call, modelled
by the parameter `asinOf` (returning `match.group(1)` on a hit); a hit
in `meta_map` contributes its optional `ddc` field. -/
def metaCodeOf (asinOf : String → Option String)
    (meta_map : List (String × MetaEntry)) (filename : String) :
    Option PyStr :=
  match asinOf filename with
  | some grp =>
    match lookupMap meta_map (clean_asin grp) with
    | some entry => entry.ddc
    | none => none
  | none => none

/-- Step `# 3. Build Tree`: walk/create the `LibraryNode` chain of one
resolved path stack (children keyed by `node_key`, appended in
insertion order) and attach the file to the deepest node. -/
def attachFile (pair : FileInfo) : LibraryNode → List DDCNode → LibraryNode
  | node, [] =>
    .mk node.folder_name node.full_path (node.files ++ [pair]) node.children
      node.ddc_def
  | node, d :: rest =>
    let key := nodeKeyOf d
    let children₀ :=
      if key ∈ node.children.map Prod.fst then node.children
      else node.children ++
        [(key, LibraryNode.mk (get_folder_name d)
          (joinPath node.full_path (get_folder_name d)) [] [] (some d))]
    .mk node.folder_name node.full_path node.files
      (children₀.map (fun kc =>
        if kc.1 == key then (kc.1, attachFile pair kc.2 rest) else kc))
      node.ddc_def

/-- The evolving state of `build_virtual_tree`: the tree root, the
`manual_map` (mutated in place) and the `map_updated` flag. -/
structure BuildState where
  root : LibraryNode
  manual : List (String × Option PyStr)
  updated : Bool

/-- One iteration of the `for src_path in files:` loop of
`build_virtual_tree`. -/
def processFile (asinOf : String → Option String)
    (meta_map : List (String × MetaEntry)) (ddc_tree : List DDCNode)
    (st : BuildState) (src_path : String) : BuildState :=
  let filename := basename src_path
  let mcode := metaCodeOf asinOf meta_map filename
  let step2 : Option PyStr × List (String × Option PyStr) × Bool :=
    if truthyCode mcode then (mcode, st.manual, st.updated)
    else
      match lookupMap st.manual filename with
      | some v => (v, st.manual, st.updated)
      | none => (none, st.manual ++ [(filename, none)], true)
  let root' :=
    if truthyCode step2.1 then
      let path_stack := resolve_path_stack step2.1 ddc_tree
      if path_stack.isEmpty then st.root
      else attachFile (src_path, filename) st.root path_stack
    else st.root
  ⟨root', step2.2.1, step2.2.2⟩

/-- Python `build_virtual_tree(files, meta_map, manual_map, ddc_tree,
library_root)`: fold the per-file processing over the scanned files,
starting from the synthetic `ROOT` node; returns the root, the final
manual map and the `map_updated` flag. -/
def build_virtual_tree (asinOf : String → Option String)
    (files : List String) (meta_map : List (String × MetaEntry))
    (manual_map : List (String × Option PyStr)) (ddc_tree : List DDCNode)
    (library_root : String) : BuildState :=
  files.foldl (processFile asinOf meta_map ddc_tree)
    ⟨.mk "ROOT" library_root [] [] none, manual_map, false⟩

/-- The code that decides whether a file is attached, evaluated against
the initial manual map: the metadata code when truthy, otherwise the
file's entry in the initial map (`none` when absent).  During a run the
manual map only grows by null entries, so the code actually used agrees
with this in truthiness and, when truthy, in value. -/
def effCode (asinOf : String → Option String)
    (meta_map : List (String × MetaEntry))
    (manual₀ : List (String × Option PyStr)) (src_path : String) :
    Option PyStr :=
  let filename := basename src_path
  let mcode := metaCodeOf asinOf meta_map filename
  if truthyCode mcode then mcode
  else (lookupMap manual₀ filename).getD none

theorem lookupMap_append {α : Type} (m e : List (String × α)) (k : String) :
    lookupMap (m ++ e) k =
      match lookupMap m k with
      | some v => some v
      | none => lookupMap e k := by
  induction m with
  | nil => simp [lookupMap]
  | cons hd tl ih =>
    by_cases h : hd.1 == k
    · simp [lookupMap, List.find?_cons, h]
    · simp only [lookupMap, List.cons_append, List.find?_cons, h] at *
      exact ih

theorem lookupMap_singleton_self {α : Type} (k : String) (v : α) :
    lookupMap [(k, v)] k = some v := by
  simp [lookupMap, List.find?_cons]

theorem lookupMap_singleton_other {α : Type} {k k' : String} (h : k ≠ k')
    (v : α) : lookupMap [(k', v)] k = none := by
  have : (k' == k) = false := by
    simp [Ne.symm h]
  simp [lookupMap, List.find?_cons, this]

theorem getAllFilesChildren_append (l₁ l₂ : List (String × LibraryNode)) :
    getAllFilesChildren (l₁ ++ l₂) =
      getAllFilesChildren l₁ ++ getAllFilesChildren l₂ := by
  rw [getAllFilesChildren_eq_flatMap, getAllFilesChildren_eq_flatMap,
    getAllFilesChildren_eq_flatMap, List.flatMap_append]

theorem attach_update_id (pair : FileInfo) (rest : List DDCNode)
    (key : String) :
    ∀ (cs : List (String × LibraryNode)), key ∉ cs.map Prod.fst →
      cs.map (fun kc =>
        if kc.1 == key then (kc.1, attachFile pair kc.2 rest) else kc) = cs
  | [], _ => rfl
  | (k, c) :: tl, h => by
    have hk : k ≠ key := by
      intro hkk
      exact h (by simp [hkk])
    have hk' : (k == key) = false := by simp [hk]
    simp only [List.map_cons, hk', Bool.false_eq_true, if_false]
    rw [attach_update_id pair rest key tl (by
      intro hmem
      exact h (by simp [hmem]))]

theorem mem_getAllChildren_update (pair : FileInfo) (rest : List DDCNode)
    (key : String) (x : FileInfo)
    (IH : ∀ (node : LibraryNode),
      x ∈ get_all_files_recursive (attachFile pair node rest) ↔
        x = pair ∨ x ∈ get_all_files_recursive node) :
    ∀ (cs : List (String × LibraryNode)), key ∈ cs.map Prod.fst →
      (x ∈ getAllFilesChildren (cs.map (fun kc =>
          if kc.1 == key then (kc.1, attachFile pair kc.2 rest) else kc)) ↔
        x = pair ∨ x ∈ getAllFilesChildren cs)
  | [], h => by simp at h
  | (k, c) :: tl, h => by
    by_cases hk : k = key
    · subst hk
      have hk' : (k == k) = true := by simp
      simp only [List.map_cons, hk', if_true]
      rw [getAllFilesChildren, getAllFilesChildren]
      by_cases htl : k ∈ tl.map Prod.fst
      · have rec := mem_getAllChildren_update pair rest k x IH tl htl
        simp only [List.mem_append, rec, IH c]
        tauto
      · rw [attach_update_id pair rest k tl htl]
        simp only [List.mem_append, IH c]
        tauto
    · have hk' : (k == key) = false := by simp [hk]
      have htl : key ∈ tl.map Prod.fst := by
        simp only [List.map_cons] at h
        rcases List.mem_cons.mp h with heq | hmem
        · exact absurd heq.symm hk
        · exact hmem
      have rec := mem_getAllChildren_update pair rest key x IH tl htl
      simp only [List.map_cons, hk', Bool.false_eq_true, if_false]
      rw [getAllFilesChildren, getAllFilesChildren]
      simp only [List.mem_append, rec]
      tauto

theorem mem_getAll_attachFile (pair : FileInfo) :
    ∀ (stack : List DDCNode) (node : LibraryNode) (x : FileInfo),
      x ∈ get_all_files_recursive (attachFile pair node stack) ↔
        x = pair ∨ x ∈ get_all_files_recursive node
  | [], node, x => by
    obtain ⟨fn, fp, fs, cs, dd⟩ := node
    rw [attachFile]
    rw [get_all_files_eq, get_all_files_eq]
    simp only [LibraryNode.files, LibraryNode.children, List.mem_append,
      List.mem_singleton]
    tauto
  | d :: rest, node, x => by
    have IH : ∀ (n : LibraryNode),
        x ∈ get_all_files_recursive (attachFile pair n rest) ↔
          x = pair ∨ x ∈ get_all_files_recursive n :=
      fun n => mem_getAll_attachFile pair rest n x
    obtain ⟨fn, fp, fs, cs, dd⟩ := node
    rw [attachFile]
    rw [get_all_files_eq, get_all_files_eq]
    simp only [LibraryNode.files, LibraryNode.children, List.mem_append]
    by_cases hmem : nodeKeyOf d ∈ cs.map Prod.fst
    · rw [if_pos hmem]
      have := mem_getAllChildren_update pair rest (nodeKeyOf d) x IH cs hmem
      rw [this]
      tauto
    · rw [if_neg hmem]
      have hmem' : nodeKeyOf d ∈
          (cs ++ [(nodeKeyOf d, LibraryNode.mk (get_folder_name d)
            (joinPath (LibraryNode.mk fn fp fs cs dd).full_path
              (get_folder_name d)) [] []
            (some d))]).map Prod.fst := by
        simp
      have := mem_getAllChildren_update pair rest (nodeKeyOf d) x IH _ hmem'
      rw [this, getAllFilesChildren_append]
      simp only [List.mem_append]
      have hfresh : getAllFilesChildren
          [(nodeKeyOf d, LibraryNode.mk (get_folder_name d)
            (joinPath (LibraryNode.mk fn fp fs cs dd).full_path
              (get_folder_name d)) [] []
            (some d))] = [] := rfl
      rw [hfresh]
      simp only [List.not_mem_nil]
      tauto

/-- The manual map during a run agrees with the initial map except for
added null entries. -/
def MapEvolves (manual₀ m : List (String × Option PyStr)) : Prop :=
  ∀ k, lookupMap m k = lookupMap manual₀ k ∨
    (lookupMap manual₀ k = none ∧ lookupMap m k = some none)

/-- Loop invariant of `build_virtual_tree` after processing the files in
`processed`: the map has only gained null entries; the updated flag is
set iff some processed file had no truthy metadata code and was absent
from the initial map; any map change implies the flag; and every
attached file is a processed file whose effective code is truthy. -/
def BuildInv (asinOf : String → Option String)
    (meta_map : List (String × MetaEntry))
    (manual₀ : List (String × Option PyStr)) (processed : List String)
    (st : BuildState) : Prop :=
  MapEvolves manual₀ st.manual ∧
  (st.updated = true ↔ ∃ src ∈ processed,
    truthyCode (metaCodeOf asinOf meta_map (basename src)) = false ∧
    lookupMap manual₀ (basename src) = none) ∧
  (∀ k, lookupMap st.manual k ≠ lookupMap manual₀ k → st.updated = true) ∧
  (∀ src ∈ processed,
    truthyCode (metaCodeOf asinOf meta_map (basename src)) = false →
    lookupMap manual₀ (basename src) = none →
    lookupMap st.manual (basename src) = some none) ∧
  (∀ x ∈ get_all_files_recursive st.root, ∃ src ∈ processed,
    x = (src, basename src) ∧
    truthyCode (effCode asinOf meta_map manual₀ src) = true)

theorem processFile_inv (asinOf : String → Option String)
    (meta_map : List (String × MetaEntry)) (ddc_tree : List DDCNode)
    (manual₀ : List (String × Option PyStr)) (processed : List String)
    (st : BuildState) (src : String)
    (h : BuildInv asinOf meta_map manual₀ processed st) :
    BuildInv asinOf meta_map manual₀ (processed ++ [src])
      (processFile asinOf meta_map ddc_tree st src) := by
  obtain ⟨hA, hB, hC, hE, hD⟩ := h
  by_cases hmc : truthyCode (metaCodeOf asinOf meta_map (basename src)) = true
  · -- metadata-derived code is truthy: map and flag untouched
    have hman : (processFile asinOf meta_map ddc_tree st src).manual =
        st.manual := by
      simp [processFile, hmc]
    have hupd : (processFile asinOf meta_map ddc_tree st src).updated =
        st.updated := by
      simp [processFile, hmc]
    have hroot : (processFile asinOf meta_map ddc_tree st src).root =
        if (resolve_path_stack (metaCodeOf asinOf meta_map (basename src))
            ddc_tree).isEmpty then st.root
        else attachFile (src, basename src) st.root
          (resolve_path_stack (metaCodeOf asinOf meta_map (basename src))
            ddc_tree) := by
      simp only [processFile]
      rw [hmc]
      simp only [if_true]
      rw [hmc]
      simp
    refine ⟨?_, ?_, ?_, ?_, ?_⟩
    · rw [hman]; exact hA
    · rw [hupd, hB]
      constructor
      · rintro ⟨s, hs, hp⟩
        exact ⟨s, List.mem_append_left _ hs, hp⟩
      · rintro ⟨s, hs, hp⟩
        rcases List.mem_append.mp hs with hs' | hs'
        · exact ⟨s, hs', hp⟩
        · rcases List.mem_singleton.mp hs' with rfl
          exact absurd hp.1 (by simp [hmc])
    · rw [hman, hupd]; exact hC
    · rw [hman]
      intro s hs hf h0
      rcases List.mem_append.mp hs with hs' | hs'
      · exact hE s hs' hf h0
      · rcases List.mem_singleton.mp hs' with rfl
        rw [hmc] at hf
        exact Bool.noConfusion hf
    · rw [hroot]
      intro x hx
      by_cases hemp : (resolve_path_stack
          (metaCodeOf asinOf meta_map (basename src)) ddc_tree).isEmpty
      · rw [if_pos hemp] at hx
        obtain ⟨s, hs, hh⟩ := hD x hx
        exact ⟨s, List.mem_append_left _ hs, hh⟩
      · rw [if_neg hemp] at hx
        rcases (mem_getAll_attachFile _ _ _ _).mp hx with rfl | hold
        · refine ⟨src, List.mem_append_right _ (List.mem_singleton_self src),
            rfl, ?_⟩
          simp [effCode, hmc]
        · obtain ⟨s, hs, hh⟩ := hD x hold
          exact ⟨s, List.mem_append_left _ hs, hh⟩
  · -- consult the manual map
    have hmcf : truthyCode (metaCodeOf asinOf meta_map (basename src)) =
        false := by
      exact Bool.not_eq_true _ ▸ (Bool.eq_false_iff.mpr hmc)
    cases hlook : lookupMap st.manual (basename src) with
    | some v =>
      have hman : (processFile asinOf meta_map ddc_tree st src).manual =
          st.manual := by
        simp [processFile, hmcf, hlook]
      have hupd : (processFile asinOf meta_map ddc_tree st src).updated =
          st.updated := by
        simp [processFile, hmcf, hlook]
      have hroot : (processFile asinOf meta_map ddc_tree st src).root =
          if truthyCode v then
            (if (resolve_path_stack v ddc_tree).isEmpty then st.root
            else attachFile (src, basename src) st.root
              (resolve_path_stack v ddc_tree))
          else st.root := by
        simp only [processFile]
        rw [hmcf, hlook]
        simp
      refine ⟨?_, ?_, ?_, ?_, ?_⟩
      · rw [hman]; exact hA
      · rw [hupd, hB]
        constructor
        · rintro ⟨s, hs, hp⟩
          exact ⟨s, List.mem_append_left _ hs, hp⟩
        · rintro ⟨s, hs, hp⟩
          rcases List.mem_append.mp hs with hs' | hs'
          · exact ⟨s, hs', hp⟩
          · rcases List.mem_singleton.mp hs' with rfl
            have hdiff : lookupMap st.manual (basename s) ≠
                lookupMap manual₀ (basename s) := by
              rw [hlook, hp.2]
              simp
            rw [← hB]
            exact hC _ hdiff
      · rw [hman, hupd]; exact hC
      · rw [hman]
        intro s hs hf h0
        rcases List.mem_append.mp hs with hs' | hs'
        · exact hE s hs' hf h0
        · rcases List.mem_singleton.mp hs' with rfl
          rcases hA (basename s) with hi | ⟨_, hsn⟩
          · rw [h0] at hi
            rw [hi] at hlook
            exact Option.noConfusion hlook
          · exact hsn
      · rw [hroot]
        intro x hx
        by_cases htv : truthyCode v = true
        · rw [if_pos htv] at hx
          by_cases hemp : (resolve_path_stack v ddc_tree).isEmpty
          · rw [if_pos hemp] at hx
            obtain ⟨s, hs, hh⟩ := hD x hx
            exact ⟨s, List.mem_append_left _ hs, hh⟩
          · rw [if_neg hemp] at hx
            rcases (mem_getAll_attachFile _ _ _ _).mp hx with rfl | hold
            · refine ⟨src, List.mem_append_right _
                (List.mem_singleton_self src), rfl, ?_⟩
              rcases hA (basename src) with hi | ⟨h0, hsn⟩
              · rw [hlook] at hi
                simp only [effCode, hmcf, Bool.false_eq_true, if_false]
                rw [← hi]
                simpa using htv
              · rw [hlook] at hsn
                have : v = none := by injection hsn
                rw [this] at htv
                simp [truthyCode] at htv
            · obtain ⟨s, hs, hh⟩ := hD x hold
              exact ⟨s, List.mem_append_left _ hs, hh⟩
        · rw [if_neg htv] at hx
          obtain ⟨s, hs, hh⟩ := hD x hx
          exact ⟨s, List.mem_append_left _ hs, hh⟩
    | none =>
      have h0 : lookupMap manual₀ (basename src) = none := by
        rcases hA (basename src) with hi | ⟨_, hsn⟩
        · rw [← hi, hlook]
        · rw [hlook] at hsn
          exact absurd hsn (by simp)
      have hman : (processFile asinOf meta_map ddc_tree st src).manual =
          st.manual ++ [(basename src, none)] := by
        simp [processFile, hmcf, hlook]
      have hupd : (processFile asinOf meta_map ddc_tree st src).updated =
          true := by
        simp [processFile, hmcf, hlook]
      have hroot : (processFile asinOf meta_map ddc_tree st src).root =
          st.root := by
        simp only [processFile]
        rw [hmcf, hlook]
        simp [truthyCode]
      refine ⟨?_, ?_, ?_, ?_, ?_⟩
      · intro k
        rw [hman]
        by_cases hk : k = basename src
        · subst hk
          right
          refine ⟨h0, ?_⟩
          rw [lookupMap_append, hlook, lookupMap_singleton_self]
        · rw [lookupMap_append]
          cases hmk : lookupMap st.manual k with
          | some w =>
            rcases hA k with hi | ⟨h0', hsn⟩
            · left; rw [← hi, hmk]
            · right; exact ⟨h0', by rw [← hsn, hmk]⟩
          | none =>
            rw [lookupMap_singleton_other hk]
            rcases hA k with hi | ⟨h0', hsn⟩
            · left; rw [← hi, hmk]
            · rw [hmk] at hsn
              exact absurd hsn (by simp)
      · rw [hupd]
        constructor
        · intro _
          exact ⟨src, List.mem_append_right _ (List.mem_singleton_self src),
            hmcf, h0⟩
        · intro _; rfl
      · intro k _
        rw [hupd]
      · rw [hman]
        intro s hs hf hs0
        rcases List.mem_append.mp hs with hs' | hs'
        · have h1 := hE s hs' hf hs0
          rw [lookupMap_append, h1]
        · rcases List.mem_singleton.mp hs' with rfl
          rw [lookupMap_append, hlook, lookupMap_singleton_self]
      · rw [hroot]
        intro x hx
        obtain ⟨s, hs, hh⟩ := hD x hx
        exact ⟨s, List.mem_append_left _ hs, hh⟩

theorem build_fold_inv (asinOf : String → Option String)
    (meta_map : List (String × MetaEntry)) (ddc_tree : List DDCNode)
    (manual₀ : List (String × Option PyStr)) :
    ∀ (files processed : List String) (st : BuildState),
      BuildInv asinOf meta_map manual₀ processed st →
      BuildInv asinOf meta_map manual₀ (processed ++ files)
        (files.foldl (processFile asinOf meta_map ddc_tree) st) := by
  intro files
  induction files with
  | nil =>
    intro processed st h
    simpa using h
  | cons f fs ih =>
    intro processed st h
    have h1 := processFile_inv asinOf meta_map ddc_tree manual₀ processed st f h
    have h2 := ih (processed ++ [f]) _ h1
    simpa [List.append_assoc] using h2

theorem build_inv_start (asinOf : String → Option String)
    (meta_map : List (String × MetaEntry))
    (manual₀ : List (String × Option PyStr)) (library_root : String) :
    BuildInv asinOf meta_map manual₀ []
      ⟨.mk "ROOT" library_root [] [] none, manual₀, false⟩ := by
  refine ⟨fun k => Or.inl rfl, by simp, fun k hk => absurd rfl hk, ?_, ?_⟩
  · intro s hs
    simp at hs
  intro x hx
  have : get_all_files_recursive (.mk "ROOT" library_root [] [] none) =
      ([] : List FileInfo) := rfl
  rw [this] at hx
  simp at hx

/-- C7: `build_virtual_tree` never removes or overwrites an existing
manual-map entry; every entry it adds is null; the map is reported
modified exactly when some file has no truthy metadata-derived code and
its filename is absent from the initial map; such a new unknown file
actually receives a null entry; and any file whose code falls through to
the manual map and finds no code there — whether a new unknown file or
one whose existing entry is null — is not attached to the tree (by the
modified-iff part, the existing-null file also causes no rewrite on
reruns). -/
theorem build_virtual_tree_manual_map_frame :
    ∀ (asinOf : String → Option String) (files : List String)
      (meta_map : List (String × MetaEntry))
      (manual₀ : List (String × Option PyStr)) (ddc_tree : List DDCNode)
      (library_root : String),
      (∀ k v, lookupMap manual₀ k = some v →
        lookupMap (build_virtual_tree asinOf files meta_map manual₀ ddc_tree
          library_root).manual k = some v) ∧
      (∀ k v, lookupMap manual₀ k = none →
        lookupMap (build_virtual_tree asinOf files meta_map manual₀ ddc_tree
          library_root).manual k = some v → v = none) ∧
      ((build_virtual_tree asinOf files meta_map manual₀ ddc_tree
          library_root).updated = true ↔ ∃ src ∈ files,
        truthyCode (metaCodeOf asinOf meta_map (basename src)) = false ∧
        lookupMap manual₀ (basename src) = none) ∧
      (∀ src ∈ files,
        truthyCode (metaCodeOf asinOf meta_map (basename src)) = false →
        lookupMap manual₀ (basename src) = none →
        lookupMap (build_virtual_tree asinOf files meta_map manual₀ ddc_tree
          library_root).manual (basename src) = some none) ∧
      (∀ src ∈ files,
        truthyCode (metaCodeOf asinOf meta_map (basename src)) = false →
        (lookupMap manual₀ (basename src) = none ∨
          lookupMap manual₀ (basename src) = some none) →
        (src, basename src) ∉ get_all_files_recursive
          (build_virtual_tree asinOf files meta_map manual₀ ddc_tree
            library_root).root) := by
  intro asinOf files meta_map manual₀ ddc_tree library_root
  have hinv : BuildInv asinOf meta_map manual₀ files
      (build_virtual_tree asinOf files meta_map manual₀ ddc_tree
        library_root) := by
    have := build_fold_inv asinOf meta_map ddc_tree manual₀ files [] _
      (build_inv_start asinOf meta_map manual₀ library_root)
    simpa [build_virtual_tree] using this
  obtain ⟨hA, hB, hC, hE, hD⟩ := hinv
  refine ⟨?_, ?_, hB, hE, ?_⟩
  · intro k v hv
    rcases hA k with hi | ⟨h0, _⟩
    · rw [hi, hv]
    · rw [hv] at h0
      exact absurd h0 (by simp)
  · intro k v h0 hv
    rcases hA k with hi | ⟨_, hsn⟩
    · rw [hi, h0] at hv
      exact absurd hv (by simp)
    · rw [hv] at hsn
      exact Option.some.inj hsn
  · intro src hsrc hfalse hnull hmem
    obtain ⟨s, _, heq, htruthy⟩ := hD _ hmem
    have hs_eq : s = src := (congrArg Prod.fst heq).symm
    subst hs_eq
    have : effCode asinOf meta_map manual₀ s = none := by
      simp only [effCode, hfalse, Bool.false_eq_true, if_false]
      rcases hnull with h1 | h1 <;> rw [h1] <;> rfl
    rw [this] at htruthy
    simp [truthyCode] at htruthy

/-- A concrete run: no metadata hits, one unknown file `u.pdf`, one file
`k.pdf` with an existing null manual-map entry. -/
def buildW : BuildState :=
  build_virtual_tree (fun _ => none) ["/lib/u.pdf", "/lib/k.pdf"] []
    [("k.pdf", none)] tableC4 "/lib"

theorem build_virtual_tree_manual_map_frame_witness :
    lookupMap buildW.manual "k.pdf" = some none ∧
      buildW.updated = true ∧
      lookupMap buildW.manual "u.pdf" = some none ∧
      ("/lib/u.pdf", "u.pdf") ∉ get_all_files_recursive buildW.root ∧
      ("/lib/k.pdf", "k.pdf") ∉ get_all_files_recursive buildW.root := by
  refine ⟨?_, ?_, ?_, ?_, ?_⟩
  · exact (build_virtual_tree_manual_map_frame (fun _ => none)
      ["/lib/u.pdf", "/lib/k.pdf"] [] [("k.pdf", none)] tableC4 "/lib").1
      "k.pdf" none rfl
  · exact (build_virtual_tree_manual_map_frame (fun _ => none)
      ["/lib/u.pdf", "/lib/k.pdf"] [] [("k.pdf", none)] tableC4 "/lib").2.2.1.mpr
      ⟨"/lib/u.pdf", by simp, rfl, rfl⟩
  · exact (build_virtual_tree_manual_map_frame (fun _ => none)
      ["/lib/u.pdf", "/lib/k.pdf"] [] [("k.pdf", none)] tableC4
      "/lib").2.2.2.1 "/lib/u.pdf" (by simp) rfl rfl
  · exact (build_virtual_tree_manual_map_frame (fun _ => none)
      ["/lib/u.pdf", "/lib/k.pdf"] [] [("k.pdf", none)] tableC4
      "/lib").2.2.2.2 "/lib/u.pdf" (by simp) rfl (Or.inl rfl)
  · exact (build_virtual_tree_manual_map_frame (fun _ => none)
      ["/lib/u.pdf", "/lib/k.pdf"] [] [("k.pdf", none)] tableC4
      "/lib").2.2.2.2 "/lib/k.pdf" (by simp) rfl (Or.inr rfl)
